import Mathlib

/-!
Verification of purewin's safe-deletion core.

This file shallowly embeds the path-safety guard (`internal/core`), the
whitelist subsystem (`pkg/whitelist`), the scan engine (`internal/clean/dev.go`),
the batch deletion loop (`cmd`, runClean) and the executor contract, and proves
the stated properties about them.

Conventions of the embedding:
* Go strings are Lean `String`s; byte-level operations of the Go standard
  library are modelled on `List Char`, which coincides with Go's byte view on
  the ASCII inputs this code handles (Windows drive paths, glob patterns).
* Case mapping (`strings.ToLower`, `strings.EqualFold`) is modelled by ASCII
  case mapping, which agrees with Go's Unicode tables on ASCII input.
* Filesystem access (`os.Lstat`, `filepath.WalkDir`, glob directory reads) is
  abstracted into explicit oracle functions passed as parameters, so that every
  function is a pure function of the filesystem snapshot it is given.
-/

namespace PureWin

/-! ### Character primitives (Go `os.IsPathSeparator`, `unicode`, ASCII case) -/

/-- Models `os.IsPathSeparator` on Windows: both `\` and `/` are separators. -/
def isSep (c : Char) : Bool := c = '\\' || c = '/'

/-- ASCII lower-case mapping; agrees with Go's `unicode.ToLower` on ASCII. -/
def lowChar (c : Char) : Char := Char.toLower c

/-- Models `strings.ToLower` on a character list (ASCII fragment). -/
def lowerL (l : List Char) : List Char := l.map lowChar

/-- Models `strings.ToLower` (ASCII fragment). -/
def strToLower (s : String) : String := ⟨lowerL s.data⟩

/-- Models `strings.EqualFold` (ASCII fragment: case-insensitive equality). -/
def eqFold (a b : String) : Bool := lowerL a.data == lowerL b.data

/-- ASCII letter test; `unicode.IsLetter` restricted to ASCII (drive letters). -/
def isAsciiLetter (c : Char) : Bool :=
  ('A' ≤ c && c ≤ 'Z') || ('a' ≤ c && c ≤ 'z')

/-- Models `unicode.IsControl`: the Cc category is U+0000–U+001F, U+007F–U+009F. -/
def isCtl (c : Char) : Bool :=
  c.toNat < 32 || (127 ≤ c.toNat && c.toNat ≤ 159)

/-- Models `unicode.IsSpace` restricted to the characters it can meet here
(space, tab, newline, vertical tab, form feed, carriage return, NEL, NBSP). -/
def isSpace (c : Char) : Bool :=
  c.toNat = 32 || c.toNat = 9 || (10 ≤ c.toNat && c.toNat ≤ 13) ||
  c.toNat = 133 || c.toNat = 160

/-- Models `strings.TrimSpace`. -/
def trimSpace (s : String) : String :=
  ⟨(((s.data.dropWhile isSpace).reverse.dropWhile isSpace).reverse)⟩

/-! ### `path/filepath` for Windows: `Clean`, `IsAbs`, `ToSlash`

`volumeNameLen` is modelled for drive-letter volumes (`C:`); UNC volumes
(`\\server\share`) do not occur anywhere in this code base and are left out. -/

/-- Models `filepath.volumeNameLen`, drive-letter branch: a path whose second byte is
`:` has a two-byte volume name. -/
def volumeNameLen (l : List Char) : Nat :=
  if l.tail.head? = some ':' then 2 else 0

/-- Models `filepath.IsAbs` on Windows (drive-letter paths): a volume followed by a
separator. -/
def isAbs (s : String) : Bool :=
  let l := s.data
  if volumeNameLen l = 0 then false
  else
    match l.drop (volumeNameLen l) with
    | [] => false
    | c :: _ => isSep c

/-- Split a character list at every separator, keeping empty segments. -/
def splitBy (p : Char → Bool) : List Char → List (List Char)
  | [] => [[]]
  | c :: rest =>
    if p c then [] :: splitBy p rest
    else
      match splitBy p rest with
      | s :: ss => (c :: s) :: ss
      | [] => [[c]]

/-- Join path elements with the Windows separator `\`. -/
def joinSeps : List (List Char) → List Char
  | [] => []
  | c :: rest => c ++ (if rest.isEmpty then [] else '\\' :: joinSeps rest)

/-- One step of `filepath.Clean`'s element processing: push a path element on
the stack of kept elements (stack is in reverse order).  Empty and `.` elements
are dropped; `..` pops (or, on an unrooted path, accumulates). -/
def pushComp (rooted : Bool) (stack : List (List Char)) (c : List Char) :
    List (List Char) :=
  if c = [] || c = ['.'] then stack
  else if c = ['.', '.'] then
    match stack with
    | [] => if rooted then [] else [c]
    | top :: rest =>
      if rooted then rest
      else if top = ['.', '.'] then c :: stack
      else rest
  else c :: stack

/-- Process all elements of a path (left to right). -/
def processComps (rooted : Bool) (cs : List (List Char)) : List (List Char) :=
  (cs.foldl (pushComp rooted) []).reverse

/-- Models `filepath.Clean`'s Windows `postClean` colon rule: when the path has no
volume and its first element contains a `:`, `.\` is prepended (this happens
exactly when the cleaning loop materialised a new buffer, i.e. when the cleaned
body is not a literal prefix of the original body). -/
def needsDotSlash (vl : Nat) (body rest : List Char) : Bool :=
  vl = 0 && !(body.isPrefixOf rest) &&
    (body.takeWhile (fun c => !isSep c)).contains ':'

/-- The element-processing part of `filepath.Clean`: split the volume-free
tail into elements, apply the `.`/`..` rules, rejoin with `\` (a rooted body
keeps its leading separator and is never empty; an empty unrooted result
becomes `.`). -/
def cleanBody (rooted : Bool) (rest : List Char) : List Char :=
  if rooted then '\\' :: joinSeps (processComps rooted (splitBy isSep rest))
  else if joinSeps (processComps rooted (splitBy isSep rest)) = [] then ['.']
  else joinSeps (processComps rooted (splitBy isSep rest))

/-- Models `filepath.Clean` for Windows (drive-letter and relative paths; UNC device
paths are out of scope).  Follows the Go algorithm: strip the volume name,
process the elements with the `.`/`..` rules, rejoin with `\`. -/
def cleanL (l : List Char) : List Char :=
  match l.drop (volumeNameLen l) with
  | [] => l ++ ['.']
  | c :: _ =>
    l.take (volumeNameLen l) ++
      (if needsDotSlash (volumeNameLen l)
          (cleanBody (isSep c) (l.drop (volumeNameLen l))) (l.drop (volumeNameLen l)) then
        '.' :: '\\' :: cleanBody (isSep c) (l.drop (volumeNameLen l))
      else cleanBody (isSep c) (l.drop (volumeNameLen l)))

/-- Models `filepath.Clean` (Windows). -/
def clean (s : String) : String := ⟨cleanL s.data⟩

/-- Models `filepath.ToSlash`: replace `\` by `/`. -/
def toSlashL (l : List Char) : List Char :=
  l.map fun c => if c = '\\' then '/' else c

/-! ### `internal/config`: the never-delete list -/

/-- Models `config.GetNeverDeletePaths` (internal/config/paths.go): the hardcoded,
non-configurable list of paths that must never be deleted. -/
def GetNeverDeletePaths : List String :=
  [ "C:\\Windows",
    "C:\\Windows\\System32",
    "C:\\Windows\\SysWOW64",
    "C:\\Windows\\WinSxS",
    "C:\\Windows\\assembly",
    "C:\\Windows\\System32\\config",
    "C:\\Boot",
    "C:\\bootmgr",
    "C:\\EFI",
    "C:\\Program Files",
    "C:\\Program Files (x86)",
    "C:\\Users",
    "C:\\ProgramData",
    "C:\\Recovery",
    "C:\\Windows\\Installer",
    "C:\\Windows\\servicing",
    "C:\\Windows\\Prefetch" ]

/-! ### `internal/core`: `IsSafePath` and `ValidatePath` -/

/-- Models `core.IsSafePath`: true when the cleaned path neither equals (case
insensitively) nor lies under any entry of the never-delete list. -/
def IsSafePath (path : String) : Bool :=
  let cleaned := clean path
  GetNeverDeletePaths.all fun prot =>
    let protClean := clean prot
    !(eqFold cleaned protClean) &&
    !((lowerL (protClean.data ++ ['\\'])).isPrefixOf
        (lowerL cleaned.data ++ ['\\']))

/-- Models `core.ValidatePath`.  `ls` models `os.Lstat` restricted to what the code
reads from it (`none` = stat error, `some b` = exists with `b` = is-symlink);
`ev` models `filepath.EvalSymlinks` (`none` = resolution error). -/
def ValidatePath (ls : String → Option Bool) (ev : String → Option String)
    (path : String) : Except String Unit :=
  -- 1. Not empty.
  if trimSpace path = "" then .error "path is empty"
  -- 2. Must be absolute.
  else if !(isAbs path) then .error ("path must be absolute, got: " ++ path)
  else
    -- 2.5. Reject drive roots (e.g., C:\ or C:).
    let cl := (clean path).data
    if (match cl with
        | [a, b] => b = ':' && isAsciiLetter a
        | [a, b, _] => b = ':' && isAsciiLetter a
        | _ => false) then
      .error ("path is a drive root and cannot be operated on: " ++ path)
    -- 3. No path traversal components.
    else if (splitBy (fun c => c = '/') (toSlashL path.data)).any
        (fun part => part = ['.', '.']) then
      .error ("path contains traversal component (..): " ++ path)
    -- 4. No control characters.
    else if path.data.any (fun r => isCtl r && r ≠ '\t') then
      .error ("path contains control character: " ++ path)
    -- 5. Not a NEVER_DELETE path.
    else if !(IsSafePath path) then
      .error ("path is protected and must NEVER be deleted: " ++ path)
    -- 6. If it exists and is a symlink/junction, resolve and re-check.
    else
      match ls path with
      | some true =>
        match ev path with
        | none => .error ("cannot resolve symlink " ++ path)
        | some resolved =>
          if !(IsSafePath resolved) then
            .error ("symlink " ++ path ++ " resolves to protected path: " ++ resolved)
          else .ok ()
      | _ => .ok ()

/-! ### `filepath.Match` (Windows build: `\` is a literal, not an escape)

Byte positions are modelled as `Char` positions (exact on ASCII input). -/

/-- Strip leading `*`s of a pattern (`scanChunk`'s first loop). -/
def stripStars : List Char → Bool × List Char
  | [] => (false, [])
  | c :: rest =>
    if c = '*' then (true, (stripStars rest).2) else (false, c :: rest)

/-- Models `scanChunk`'s scan: split off everything up to the next top-level `*`
(a `*` inside a `[...]` range does not end the chunk). -/
def chunkAndRest (inrange : Bool) : List Char → List Char × List Char
  | [] => ([], [])
  | c :: rest =>
    if c = '*' && !inrange then ([], c :: rest)
    else
      let ir := if c = '[' then true else if c = ']' then false else inrange
      (c :: (chunkAndRest ir rest).1, (chunkAndRest ir rest).2)

/-- Models `filepath.scanChunk`: returns (leading star?, chunk, rest of pattern). -/
def scanChunk (pattern : List Char) : Bool × List Char × List Char :=
  ((stripStars pattern).1,
   (chunkAndRest false (stripStars pattern).2).1,
   (chunkAndRest false (stripStars pattern).2).2)

/-- Models `filepath.getEsc` on Windows (no escapes): read one range endpoint.
`none` models `ErrBadPattern`. -/
def getEsc : List Char → Option (Char × List Char)
  | [] => none
  | c :: rest =>
    if c = '-' || c = ']' then none
    else if rest = [] then none
    else some (c, rest)

/-- Parse the optional `^` negation after `[` in a pattern. -/
def negParse (l : List Char) : Bool × List Char :=
  if l.head? = some '^' then (true, l.tail) else (false, l)

/-- The `[...]` range loop of `filepath.matchChunk`: consume range entries
until the closing `]`; returns (did some range match `r`?, rest of chunk),
`none` on a malformed pattern.  Every iteration of the Go loop consumes at
least one chunk character, so running it with fuel `chunk.length + 1` (as
every caller here does) executes it to completion; the out-of-fuel branch is
unreachable. -/
def rangesLoop (r : Char) : Nat → Nat → Bool → List Char → Option (Bool × List Char)
  | 0, _, _, _ => none
  | fuel + 1, nrange, matched, chunk =>
    if chunk.head? = some ']' && 0 < nrange then some (matched, chunk.tail)
    else
      match getEsc chunk with
      | none => none
      | some (lo, rest1) =>
        if rest1.head? = some '-' then
          match getEsc rest1.tail with
          | none => none
          | some (hi, rest3) =>
            rangesLoop r fuel (nrange + 1) (matched || (lo ≤ r && r ≤ hi)) rest3
        else
          rangesLoop r fuel (nrange + 1) (matched || (lo ≤ r && r ≤ lo)) rest1

/-- Models `filepath.matchChunk`'s main loop.  `failed` keeps consuming the chunk
after a mismatch so malformed patterns are still detected.  Returns
(unconsumed name, ok), `none` for `ErrBadPattern`.  Each iteration consumes at
least one chunk character, so the fuel `chunk.length + 1` supplied by
`matchChunk` executes the Go loop to completion. -/
def matchChunkLoop : Nat → Bool → List Char → List Char → Option (List Char × Bool)
  | 0, _, _, _ => none
  | _ + 1, failed, [], s => if failed then some ([], false) else some (s, true)
  | fuel + 1, failed, '[' :: rest, s =>
    let failed2 := failed || s.isEmpty
    let rs : Char × List Char :=
      match failed2, s with
      | false, sc :: srest => (sc, srest)
      | _, _ => ('A', s)
    match rangesLoop rs.1 ((negParse rest).2.length + 1) 0 false (negParse rest).2 with
    | none => none
    | some (m, rest3) => matchChunkLoop fuel (failed2 || (m == (negParse rest).1)) rest3 rs.2
  | fuel + 1, failed, '?' :: rest, s =>
    let failed2 := failed || s.isEmpty
    match failed2, s with
    | false, sc :: srest => matchChunkLoop fuel (sc = '\\') rest srest
    | _, _ => matchChunkLoop fuel true rest s
  | fuel + 1, failed, c :: rest, s =>
    let failed2 := failed || s.isEmpty
    match failed2, s with
    | false, sc :: srest => matchChunkLoop fuel (failed2 || c ≠ sc) rest srest
    | _, _ => matchChunkLoop fuel true rest s

/-- Models `filepath.matchChunk`. -/
def matchChunk (chunk s : List Char) : Option (List Char × Bool) :=
  matchChunkLoop (chunk.length + 1) false chunk s

/-- Result of the star-retry scan inside `filepath.Match`. -/
inductive RetryRes where
  | err : RetryRes
  | exhausted : RetryRes
  | cont : List Char → RetryRes

/-- The star-retry loop of `filepath.Match`: after a `*`, retry the chunk at
every later position of the name up to the next separator. -/
def starRetryLoop (chunk restPat : List Char) : List Char → RetryRes
  | [] => .exhausted
  | nc :: nrest =>
    if nc = '\\' then .exhausted
    else
      match matchChunk chunk nrest with
      | none => .err
      | some (t, true) =>
        if restPat.isEmpty && !t.isEmpty then starRetryLoop chunk restPat nrest
        else .cont t
      | some (_, false) => starRetryLoop chunk restPat nrest

/-- The sixteen-ones probe string Go uses to surface pattern errors. -/
def onesProbe : List Char :=
  ['1','1','1','1','1','1','1','1','1','1','1','1','1','1','1','1']

/-- Bad-pattern scan Go performs before returning a non-match: `true` iff some
remaining chunk is malformed.  Each iteration consumes at least one pattern
character, so fuel `p.length + 1` executes the loop to completion. -/
def badPatternCheck : Nat → List Char → Bool
  | 0, _ => false
  | fuel + 1, p =>
    match p with
    | [] => false
    | _ :: _ =>
      let sct := scanChunk p
      match matchChunk sct.2.1 onesProbe with
      | none => true
      | some _ => badPatternCheck fuel sct.2.2

/-- The main loop of `filepath.Match`.  `none` models `ErrBadPattern`.  Each
iteration consumes at least one pattern character (`scanChunk` on a non-empty
pattern returns a strictly shorter rest), so the fuel `pattern.length + 1`
supplied by `goMatch` executes the Go loop to completion. -/
def matchLoop : Nat → List Char → List Char → Option Bool
  | 0, _, _ => none
  | fuel + 1, pattern, name =>
    match pattern with
    | [] => some name.isEmpty
    | _ :: _ =>
      let sct := scanChunk pattern
      if sct.1 && sct.2.1.isEmpty then some (!(name.contains '\\'))
      else
        match matchChunk sct.2.1 name with
        | none => none
        | some (t, ok) =>
          if ok && (t.isEmpty || !sct.2.2.isEmpty) then matchLoop fuel sct.2.2 t
          else if sct.1 then
            match starRetryLoop sct.2.1 sct.2.2 name with
            | .err => none
            | .cont t2 => matchLoop fuel sct.2.2 t2
            | .exhausted =>
              if badPatternCheck (sct.2.2.length + 1) sct.2.2 then none else some false
          else if badPatternCheck (sct.2.2.length + 1) sct.2.2 then none else some false

/-- Models `filepath.Match` on Windows. -/
def goMatch (pattern name : String) : Option Bool :=
  matchLoop (pattern.data.length + 1) pattern.data name.data

/-! ### Environment-variable expansion

`os.ExpandEnv` ($-syntax) is in the Go standard library and is modelled here
in full.  `envutil.ExpandWindowsEnv` is code of this repository that is not
under `src/` (only its callers are), so it is modelled from the spec. -/

/-- Models `os.Expand`'s `isShellSpecialVar`. -/
def isShellSpecialVar (c : Char) : Bool :=
  c = '*' || c = '#' || c = '$' || c = '@' || c = '!' || c = '?' || c = '-' ||
  ('0' ≤ c && c ≤ '9')

/-- Models `os.Expand`'s `isAlphaNum`. -/
def isAlphaNum (c : Char) : Bool :=
  c = '_' || ('0' ≤ c && c ≤ '9') || ('a' ≤ c && c ≤ 'z') || ('A' ≤ c && c ≤ 'Z')

/-- Models `os.getShellName` (name of the variable following a `$` and how many
characters of the tail it spans): `${name}` braces, shell special variables,
else the longest alphanumeric run. -/
def getShellNameFull (s : List Char) : List Char × Nat :=
  match s with
  | '{' :: rest =>
    match rest with
    | c :: '}' :: _ =>
      if isShellSpecialVar c then ([c], 3)
      else bracedName rest
    | _ => bracedName rest
  | c :: _ =>
    if isShellSpecialVar c then ([c], 1)
    else (s.takeWhile isAlphaNum, (s.takeWhile isAlphaNum).length)
  | [] => ([], 0)
where
  /-- Scan to the closing brace: the name and its width (both braces
  included), or the bad-syntax eat-widths Go uses. -/
  bracedName (rest : List Char) : List Char × Nat :=
    match (rest.takeWhile (fun c => c ≠ '}')), (rest.dropWhile (fun c => c ≠ '}')) with
    | _, [] => ([], 1)
    | nm, '}' :: _ => if nm = [] then ([], 2) else (nm, nm.length + 2)
    | nm, _ => (nm, 0)

/-- Models `os.Expand`'s scan over the string; `mapping` is `os.Getenv` (missing
variables expand to the empty string).  Every step consumes at least one
character, so the fuel `l.length + 1` supplied by `goExpandEnv` executes the
Go loop to completion. -/
def goExpandLoop (mapping : String → String) : Nat → List Char → List Char
  | 0, _ => []
  | _ + 1, [] => []
  | fuel + 1, '$' :: rest =>
    if rest = [] then ['$']
    else
      if (getShellNameFull rest).1 = [] && 0 < (getShellNameFull rest).2 then
        goExpandLoop mapping fuel (rest.drop (getShellNameFull rest).2)
      else if (getShellNameFull rest).1 = [] then
        '$' :: goExpandLoop mapping fuel rest
      else
        (mapping ⟨(getShellNameFull rest).1⟩).data ++
          goExpandLoop mapping fuel (rest.drop (getShellNameFull rest).2)
  | fuel + 1, c :: rest => c :: goExpandLoop mapping fuel rest

/-- Models `os.ExpandEnv`: `$var` / `${var}` expansion with `os.Getenv` as mapping. -/
def goExpandEnv (env : String → String) (s : String) : String :=
  ⟨goExpandLoop env (s.data.length + 1) s.data⟩

/-- Modelled from the spec: `envutil.ExpandWindowsEnv` (package
`internal/envutil`, not present under `src/`) "expands any environment-variable
references" in Windows `%VAR%` form (the whitelist file header documents
"Environment variables (e.g. %USERPROFILE%) are expanded at runtime").
A `%NAME%` token whose name is bound in the environment is replaced by its
value; anything else is left as written.  Every step consumes at least one
character, so the fuel `l.length + 1` runs the scan to completion. -/
def expandWinLoop (env : String → Option String) : Nat → List Char → List Char
  | 0, _ => []
  | _ + 1, [] => []
  | fuel + 1, '%' :: rest =>
    match rest.dropWhile (fun c => c ≠ '%') with
    | '%' :: after =>
      match env ⟨rest.takeWhile (fun c => c ≠ '%')⟩ with
      | some v => v.data ++ expandWinLoop env fuel after
      | none =>
        '%' :: rest.takeWhile (fun c => c ≠ '%') ++ '%' :: expandWinLoop env fuel after
    | _ => '%' :: rest
  | fuel + 1, c :: rest => c :: expandWinLoop env fuel rest

/-- Modelled from the spec: `envutil.ExpandWindowsEnv` applied to a string. -/
def ExpandWindowsEnv (env : String → Option String) (s : String) : String :=
  ⟨expandWinLoop env (s.data.length + 1) s.data⟩

/-! ### `pkg/whitelist` -/

/-- Models `whitelist.Whitelist` (the persistence path and lock are outside the
model: `Load`/`Save` do file I/O, and locking has no observable effect on the
sequential semantics modelled here). -/
structure Whitelist where
  patterns : List String
deriving DecidableEq, Repr

/-- Models `whitelist.validatePattern`: reject dangerously broad patterns. -/
def validatePattern (pattern : String) : Except String Unit :=
  let cleaned := trimSpace pattern
  -- 1. Reject wildcard-only patterns.
  if cleaned = "*" || cleaned = "**" then
    .error ("pattern is too broad and would match everything: " ++ pattern)
  else
    -- 2. Reject drive roots and drive root wildcards (e.g., C:\, C:, C:\*).
    if (match cleaned.data with
        | first :: ':' :: rest =>
          (('A' ≤ first && first ≤ 'Z') || ('a' ≤ first && first ≤ 'z')) &&
            (rest = [] || rest = ['\\'] || rest = ['/'] ||
             rest = ['\\', '*'] || rest = ['/', '*'])
        | _ => false) then
      .error ("pattern is a drive root and too dangerous: " ++ pattern)
    -- 3. Require at least 2 path separators.
    else if (cleaned.data.count '\\' + cleaned.data.count '/') < 2 then
      .error ("pattern has fewer than 2 path separators and is too broad: " ++ pattern)
    else .ok ()

/-- Models `Whitelist.Add`: validate, reject duplicates (case-insensitively), append. -/
def Whitelist.Add (w : Whitelist) (pat : String) : Except String Whitelist :=
  let pattern := trimSpace pat
  if pattern = "" then .error "pattern cannot be empty"
  else
    match validatePattern pattern with
    | .error e => .error e
    | .ok _ =>
      if w.patterns.any (fun existing => eqFold existing pattern) then
        .error ("pattern already exists: " ++ pattern)
      else .ok ⟨w.patterns ++ [pattern]⟩

/-- Remove the first case-insensitive occurrence of a pattern
(`patterns[:i] ++ patterns[i+1:]` in the source). -/
def removeFirstFold : List String → String → Option (List String)
  | [], _ => none
  | x :: xs, pat =>
    if eqFold x pat then some xs
    else
      match removeFirstFold xs pat with
      | some ys => some (x :: ys)
      | none => none

/-- Models `Whitelist.Remove`. -/
def Whitelist.Remove (w : Whitelist) (pat : String) : Except String Whitelist :=
  let pattern := trimSpace pat
  if pattern = "" then .error "pattern cannot be empty"
  else
    match removeFirstFold w.patterns pattern with
    | some ps => .ok ⟨ps⟩
    | none => .error ("pattern not found: " ++ pattern)

/-- Models `Whitelist.IsWhitelisted`.  `expandEnv` stands for
`envutil.ExpandWindowsEnv` under the ambient process environment.  For each
stored pattern: exact case-insensitive match, then glob match, then (for
glob-free patterns) separator-bounded directory-prefix match; first match
wins. -/
def Whitelist.IsWhitelisted (expandEnv : String → String) (w : Whitelist)
    (path : String) : Bool :=
  let cleaned := clean path
  w.patterns.any fun pattern =>
    let expanded := clean (expandEnv pattern)
    -- Exact match (case-insensitive).
    eqFold cleaned expanded ||
    -- Glob match.
    (match goMatch (strToLower expanded) (strToLower cleaned) with
     | some true => true
     | _ => false) ||
    -- Prefix match for glob-free patterns.
    (if !(expanded.data.any (fun c => c = '*' || c = '?' || c = '[')) then
       ((strToLower expanded).data ++ ['\\']).isPrefixOf
         ((strToLower cleaned).data ++ ['\\'])
     else false)

/-! ### `internal/clean/dev.go`: data structures and the scan engine -/

/-- Models `config.CleanTarget` (internal/config/paths.go). -/
structure CleanTarget where
  Name : String
  Paths : List String
  Description : String
  RequiresAdmin : Bool
  Category : String
  RiskLevel : String
deriving DecidableEq, Repr

/-- Models `clean.CleanItem`: one discovered cleanable filesystem object.  Sizes are
`int64` byte counts, always non-negative, modelled as `Nat`. -/
structure CleanItem where
  Path : String
  Size : Nat
  Category : String
  Description : String
deriving DecidableEq, Repr

/-- Models `clean.ScanResult`: aggregated scan output for one target. -/
structure ScanResult where
  Category : String
  Items : List CleanItem
  TotalSize : Nat
  ItemCount : Nat
deriving DecidableEq, Repr

/-- What `os.Lstat` reports of an entry (the fields this code reads). -/
structure FileInfo where
  isDir : Bool
  size : Nat
deriving DecidableEq, Repr

/-- A filesystem snapshot, as the scan engine observes it:
`lstat` models `os.Lstat` (`none` = does not exist / inaccessible);
`walkFiles` models `filepath.WalkDir`, listing the regular files below a
directory, in walk order, with their sizes (entries whose walk callback got an
error, directory entries, and entries whose `Info()` failed are already
absent, matching the source's skip branches);
`globMeta` models `filepath.Glob` on patterns that contain meta characters
(`[]` both for no matches and for `ErrBadPattern`, which the caller treats
alike). -/
structure GoFS where
  lstat : String → Option FileInfo
  walkFiles : String → List (String × Nat)
  globMeta : String → List String

/-- Models `filepath.hasMeta` on Windows: `*?[`. -/
def hasMeta (s : String) : Bool :=
  s.data.any fun c => c = '*' || c = '?' || c = '['

/-- Models `filepath.Glob`: for patterns without meta characters Go only checks
existence and returns the pattern itself; with meta characters the directory
scan is the snapshot's `globMeta` oracle. -/
def GoFS.glob (fs : GoFS) (pattern : String) : List String :=
  if hasMeta pattern then fs.globMeta pattern
  else if (fs.lstat pattern).isSome then [pattern] else []

/-- Models `clean.scanDirectory`: walk a directory, skip whitelisted files, emit one
`CleanItem` per remaining regular file. -/
def scanDirectory (fs : GoFS) (wexp : String → String) (dir category description : String)
    (wl : Option Whitelist) : List CleanItem :=
  (fs.walkFiles dir).filterMap fun entry =>
    if (match wl with
        | some w => w.IsWhitelisted wexp entry.1
        | none => false) then none
    else some ⟨entry.1, entry.2, category, description⟩

/-- Models `clean.scanTarget`: expand environment variables (`os.ExpandEnv`), try
glob expansion with a literal-path fallback, skip whitelisted paths, recurse
into directories.  `env` is the process environment (`os.Getenv`), `wexp` is
`envutil.ExpandWindowsEnv` as used by the whitelist. -/
def scanTarget (fs : GoFS) (env : String → String) (wexp : String → String)
    (target : CleanTarget) (wl : Option Whitelist) : List CleanItem :=
  target.Paths.flatMap fun rawPath =>
    let expanded := goExpandEnv env rawPath
    let g := fs.glob expanded
    let ms := if g = [] then [expanded] else g
    ms.flatMap fun path0 =>
      let path := clean path0
      if (match wl with
          | some w => w.IsWhitelisted wexp path
          | none => false) then []
      else
        match fs.lstat path with
        | none => []
        | some info =>
          if info.isDir then
            scanDirectory fs wexp path target.Category target.Description wl
          else [⟨path, info.size, target.Category, target.Description⟩]

/-- Models `clean.ItemsToResult`: pre-calculated totals for a result. -/
def ItemsToResult (name : String) (items : List CleanItem) : ScanResult :=
  ⟨name, items, items.foldl (fun acc item => acc + item.Size) 0, items.length⟩

/-- Go byte-wise lexicographic string `<` (as `sort.Slice`'s `less`),
character by character (equals byte order on ASCII). -/
def ltCharList : List Char → List Char → Bool
  | [], [] => false
  | [], _ :: _ => true
  | _ :: _, [] => false
  | a :: as, b :: bs => if a < b then true else if b < a then false else ltCharList as bs

/-- Models `results[i].Category < results[j].Category` of the source's sort. -/
def strLt (a b : String) : Bool := ltCharList a.data b.data

/-- The non-strict order `sort.Slice` establishes: `¬ less(b, a)`. -/
def scanResLE (a b : ScanResult) : Prop := strLt b.Category a.Category = false

instance : DecidableRel scanResLE := fun a b => by
  unfold scanResLE
  infer_instance

/-- Models `clean.ScanAll`.  The Go version runs one goroutine per retained target,
collects into a mutex-guarded slice in scheduler order and then sorts by
`Category`; the model retains the targets in order and sorts with the same
comparison (a sort by `¬ less(b, a)` models `sort.Slice` with `less`), which
yields the same sorted output set. -/
def ScanAll (fs : GoFS) (env wexp : String → String) (targets : List CleanTarget)
    (wl : Option Whitelist) (isAdmin : Bool) : List ScanResult :=
  let results := targets.filterMap fun t =>
    -- Skip admin-required targets if not elevated.
    if t.RequiresAdmin && !isAdmin then none
    -- RecycleBin has no filesystem paths; handled via Shell API separately.
    else if t.Name = "RecycleBin" then none
    else
      let items := scanTarget fs env wexp t wl
      if items.isEmpty then none
      else some (ItemsToResult t.Name items)
  List.insertionSort scanResLE results

/-! ### The batch deletion loop of `runClean` (cmd, src/unnamed/part_002)

`sd` abstracts `core.SafeDelete(path, false)`: for each path either the freed
byte count or an error.  The loop accumulates `totalFreed`, `totalCleaned`
and `errCount`; an error increments `errCount` and continues. -/

/-- The accumulator triple `(totalFreed, totalCleaned, errCount)`. -/
def runCleanStep (sd : String → Except String Nat) (acc : Nat × Nat × Nat)
    (item : CleanItem) : Nat × Nat × Nat :=
  match sd item.Path with
  | .error _ => (acc.1, acc.2.1, acc.2.2 + 1)
  | .ok freed => (acc.1 + freed, acc.2.1 + 1, acc.2.2)

/-- The nested `for _, r := range allResults { for _, item := range r.Items }`
deletion loop of `runClean` (the Recycle-Bin epilogue is outside the batch
loop the claim describes). -/
def runCleanLoop (sd : String → Except String Nat) (allResults : List ScanResult) :
    Nat × Nat × Nat :=
  allResults.foldl (fun acc r => r.Items.foldl (runCleanStep sd) acc) (0, 0, 0)

/-! ### The executor (`core.SafeDelete`)

`core.SafeDelete` is code of this repository that is not under `src/` — only
its tests (`src/unnamed/part_006`) and its callers are.  It is modelled from
the spec (§4.6 Executor): validate via the path guard, treat a missing path as
already-clean success, compute the reclaimable size, in dry-run mode return
the size without touching the filesystem, otherwise delete and return the
size.  The filesystem is a finite map from paths to file sizes (directories
are flattened into their files; the spec's `IOError` outcomes of a real
deletion are environmental and outside this state model, and the executor
filesystem contains no symlinks, so the symlink re-check of the guard sees
`Lstat` fail). -/

/-- The executor's filesystem state: existing files and their sizes. -/
structure FState where
  files : List (String × Nat)
deriving DecidableEq, Repr

/-- Does a file exist, and with which size? -/
def FState.lookup (st : FState) (p : String) : Option Nat :=
  (st.files.find? (fun e => e.1 = p)).map (·.2)

/-- Remove a path from the state. -/
def FState.remove (st : FState) (p : String) : FState :=
  ⟨st.files.filter fun e => e.1 ≠ p⟩

/-- Modelled from the spec: `core.SafeDelete(path, dryRun)` (implementation
absent from `src/`).  Returns the freed/previewed byte count or the rejection,
together with the filesystem state after the call.  The test suite's error
wording (`safety check failed`, part_006) is kept. -/
def SafeDelete (st : FState) (path : String) (dryRun : Bool) :
    Except String Nat × FState :=
  match ValidatePath (fun _ => none) (fun _ => none) path with
  | .error e => (.error ("safety check failed: " ++ e), st)
  | .ok _ =>
    match st.lookup path with
    | none => (.ok 0, st)
    | some size =>
      if dryRun then (.ok size, st)
      else (.ok size, st.remove path)

/-! ### Statement helpers -/

/-- Is a result a rejection? -/
def isErrE {α : Type} (r : Except String α) : Bool :=
  match r with
  | .error _ => true
  | .ok _ => false

/-- Models `strings.Contains` (substring containment). -/
def containsSub (sub : List Char) : List Char → Bool
  | [] => sub.isEmpty
  | c :: rest => sub.isPrefixOf (c :: rest) || containsSub sub rest

/-- Does a rejection's reason mention the given text? -/
def errMentions {α : Type} (r : Except String α) (sub : String) : Bool :=
  match r with
  | .error m => containsSub sub.data m.data
  | .ok _ => false

/-! ### A concrete scan scenario (used by the C5 theorems)

A filesystem whose `C:\Tmp` directory holds exactly three files of sizes 10,
20 and 30 bytes; the whitelist matches exactly the third. -/

/-- The scenario filesystem snapshot. -/
def tempScanFS : GoFS where
  lstat := fun p =>
    if p = "C:\\Tmp" then some ⟨true, 0⟩
    else if p = "C:\\Tmp\\a.log" then some ⟨false, 10⟩
    else if p = "C:\\Tmp\\b.log" then some ⟨false, 20⟩
    else if p = "C:\\Tmp\\c.log" then some ⟨false, 30⟩
    else none
  walkFiles := fun d =>
    if d = "C:\\Tmp" then
      [("C:\\Tmp\\a.log", 10), ("C:\\Tmp\\b.log", 20), ("C:\\Tmp\\c.log", 30)]
    else []
  globMeta := fun _ => []

/-- The scenario process environment: `TEMP` resolves to `C:\Tmp`. -/
def tempScanEnv : String → String := fun n => if n = "TEMP" then "C:\\Tmp" else ""

/-- The scenario whitelist: exactly `C:\Tmp\c.log` is excluded. -/
def tempScanWL : Whitelist := ⟨["C:\\Tmp\\c.log"]⟩

/-! ### Wellformed path components (for the C1 statement)

A nested path `e\x\y` is described by its suffix components: each non-empty,
not `.` or `..`, and separator-free. -/

/-- A single path element that `Clean` keeps verbatim. -/
def compOK (c : List Char) : Bool :=
  !c.isEmpty && c ≠ ['.'] && c ≠ ['.', '.'] && c.all (fun ch => !isSep ch)

/-- A non-empty list of such elements. -/
def compsOK (cs : List (List Char)) : Bool := !cs.isEmpty && cs.all compOK

/-- Check that a never-delete entry has the shape
`<drive> : \ <element> (\ <element>)*` with wellformed elements. -/
def entryOK (e : String) : Bool :=
  match e.data with
  | _ :: ':' :: '\\' :: rest =>
    compsOK (splitBy isSep rest) && (joinSeps (splitBy isSep rest) == rest)
  | _ => false

/-! ## Theorems -/

/-- Claim C3: `ValidatePath` rejects the empty string (reason mentioning
"empty"), a relative path `relative\x` (reason mentioning "absolute"), the
bare drive root `C:\` (reason mentioning "drive root"), and the
parent-component path `C:\a\..\..\b` (reason mentioning "traversal") — for
every filesystem (the rejections happen before the symlink probe). -/
theorem validatePath_rejects_malformed (ls : String → Option Bool)
    (ev : String → Option String) :
    errMentions (ValidatePath ls ev "") "empty" = true ∧
    errMentions (ValidatePath ls ev "relative\\x") "absolute" = true ∧
    errMentions (ValidatePath ls ev "C:\\") "drive root" = true ∧
    errMentions (ValidatePath ls ev "C:\\a\\..\\..\\b") "traversal" = true :=
  ⟨rfl, rfl, rfl, rfl⟩

/-- Witness for C3: the rejections at a concrete filesystem oracle. -/
theorem validatePath_rejects_malformed_witness :
    errMentions (ValidatePath (fun _ => none) (fun _ => none) "") "empty" = true ∧
    errMentions (ValidatePath (fun _ => none) (fun _ => none) "relative\\x") "absolute" = true ∧
    errMentions (ValidatePath (fun _ => none) (fun _ => none) "C:\\") "drive root" = true ∧
    errMentions (ValidatePath (fun _ => none) (fun _ => none) "C:\\a\\..\\..\\b") "traversal" = true :=
  validatePath_rejects_malformed (fun _ => none) (fun _ => none)

/-- Claim C6: `Whitelist.Add` rejects, with the pattern-rejection error and
without storing anything (an error return leaves the receiver untouched — the
only successful outcome is the returned new whitelist), each of `*`, `**`,
`C:\` and `C:\onlyonesep`, whatever the current whitelist contents. -/
theorem whitelist_add_rejects_broad (w : Whitelist) :
    w.Add "*" = .error "pattern is too broad and would match everything: *" ∧
    w.Add "**" = .error "pattern is too broad and would match everything: **" ∧
    w.Add "C:\\" = .error "pattern is a drive root and too dangerous: C:\\" ∧
    w.Add "C:\\onlyonesep" =
      .error "pattern has fewer than 2 path separators and is too broad: C:\\onlyonesep" :=
  ⟨rfl, rfl, rfl, rfl⟩

/-- Witness for C6: the rejections on a concrete whitelist. -/
theorem whitelist_add_rejects_broad_witness :
    (Whitelist.mk ["C:\\keep\\this"]).Add "*" =
      .error "pattern is too broad and would match everything: *" ∧
    (Whitelist.mk ["C:\\keep\\this"]).Add "**" =
      .error "pattern is too broad and would match everything: **" ∧
    (Whitelist.mk ["C:\\keep\\this"]).Add "C:\\" =
      .error "pattern is a drive root and too dangerous: C:\\" ∧
    (Whitelist.mk ["C:\\keep\\this"]).Add "C:\\onlyonesep" =
      .error "pattern has fewer than 2 path separators and is too broad: C:\\onlyonesep" :=
  whitelist_add_rejects_broad ⟨["C:\\keep\\this"]⟩

/-- Counterexample for C2: The claim "for any existing file `f`,
`safeDelete(f, dryRun=true)` returns the size of `f` with no error" fails as
stated: a file that exists under a protected path is rejected by the guard
(with an error, not a size) even in dry-run mode. -/
theorem safeDelete_dryRun_counterexample :
    (FState.mk [("C:\\Windows\\Temp\\x.tmp", 5)]).lookup "C:\\Windows\\Temp\\x.tmp"
        = some 5 ∧
    isErrE (SafeDelete ⟨[("C:\\Windows\\Temp\\x.tmp", 5)]⟩
        "C:\\Windows\\Temp\\x.tmp" true).1 = true :=
  ⟨rfl, rfl⟩

/-- Claim C2 (amended): Dry-run never mutates the filesystem (for every path
and state), and for any existing file `f` whose path passes validation,
`safeDelete(f, dryRun=true)` returns the size of `f` (positive when `f` is
non-empty) with no error and `f` is still present afterwards. -/
theorem safeDelete_dryRun_no_mutation (st : FState) (f : String) (n : Nat)
    (hex : st.lookup f = some n)
    (hval : ValidatePath (fun _ => none) (fun _ => none) f = .ok ()) :
    (∀ (st' : FState) (p : String), (SafeDelete st' p true).2 = st') ∧
    (SafeDelete st f true).1 = .ok n ∧
    (SafeDelete st f true).2.lookup f = some n ∧
    (0 < n → ∃ sz, (SafeDelete st f true).1 = .ok sz ∧ 0 < sz) := by
  have hframe : ∀ (st' : FState) (p : String), (SafeDelete st' p true).2 = st' := by
    intro st' p
    unfold SafeDelete
    split
    · rfl
    · split
      · rfl
      · rfl
  have hmain : SafeDelete st f true = (.ok n, st) := by
    unfold SafeDelete
    rw [hval, hex]
    rfl
  refine ⟨hframe, ?_, ?_, ?_⟩
  · rw [hmain]
  · rw [hmain]; exact hex
  · intro hn
    exact ⟨n, by rw [hmain], hn⟩

/-- Witness for C2: a concrete one-file filesystem where validation passes. -/
theorem safeDelete_dryRun_no_mutation_witness :
    (SafeDelete ⟨[("C:\\SomeSafeDir\\SubDir\\file.tmp", 3)]⟩
        "C:\\SomeSafeDir\\SubDir\\file.tmp" true).1 = .ok 3 ∧
    (SafeDelete ⟨[("C:\\SomeSafeDir\\SubDir\\file.tmp", 3)]⟩
        "C:\\SomeSafeDir\\SubDir\\file.tmp" true).2.lookup
        "C:\\SomeSafeDir\\SubDir\\file.tmp" = some 3 :=
  ⟨(safeDelete_dryRun_no_mutation ⟨[("C:\\SomeSafeDir\\SubDir\\file.tmp", 3)]⟩
      "C:\\SomeSafeDir\\SubDir\\file.tmp" 3 rfl rfl).2.1,
   (safeDelete_dryRun_no_mutation ⟨[("C:\\SomeSafeDir\\SubDir\\file.tmp", 3)]⟩
      "C:\\SomeSafeDir\\SubDir\\file.tmp" 3 rfl rfl).2.2.1⟩

/-- Claim C4: In the batch deletion loop, one item's failure never aborts the
rest: a batch of five items whose third fails and whose others succeed ends
with four deletions, one error, and the four successful sizes summed. -/
theorem runClean_partial_failure (sd : String → Except String Nat)
    (res : ScanResult) (it1 it2 it3 it4 it5 : CleanItem)
    (n1 n2 n4 n5 : Nat) (e : String)
    (hres : res.Items = [it1, it2, it3, it4, it5])
    (h1 : sd it1.Path = .ok n1) (h2 : sd it2.Path = .ok n2)
    (h3 : sd it3.Path = .error e)
    (h4 : sd it4.Path = .ok n4) (h5 : sd it5.Path = .ok n5) :
    runCleanLoop sd [res] = (n1 + n2 + n4 + n5, 4, 1) := by
  simp [runCleanLoop, hres, runCleanStep, h1, h2, h3, h4, h5]

/-- Witness for C4: a concrete five-item batch whose third item is locked. -/
theorem runClean_partial_failure_witness :
    runCleanLoop
      (fun p =>
        if p = "C:\\W\\a" then .ok 10 else if p = "C:\\W\\b" then .ok 20
        else if p = "C:\\W\\c" then .error "locked"
        else if p = "C:\\W\\d" then .ok 40 else .ok 50)
      [⟨"Batch", [⟨"C:\\W\\a", 10, "u", "d"⟩, ⟨"C:\\W\\b", 20, "u", "d"⟩,
        ⟨"C:\\W\\c", 30, "u", "d"⟩, ⟨"C:\\W\\d", 40, "u", "d"⟩,
        ⟨"C:\\W\\e", 50, "u", "d"⟩], 150, 5⟩] = (120, 4, 1) :=
  runClean_partial_failure
    (fun p =>
      if p = "C:\\W\\a" then .ok 10 else if p = "C:\\W\\b" then .ok 20
      else if p = "C:\\W\\c" then .error "locked"
      else if p = "C:\\W\\d" then .ok 40 else .ok 50)
    _ _ _ _ _ _ 10 20 40 50 "locked" rfl rfl rfl rfl rfl rfl

/-- Counterexample for C5: With the target exactly as claimed —
`{name: "Temp", paths: ["%TEMP%"], category: "user"}` — `scanAll` returns
**no** result at all (not two items): `scanTarget` expands paths with
`os.ExpandEnv`, which expands `$TEMP`/`${TEMP}` but leaves `%TEMP%` as-is, so
the literal path `%TEMP%` matches nothing.  The same snapshot does hold the
three files of sizes 10, 20, 30 with exactly the third whitelisted. -/
theorem scanAll_percentTemp_counterexample :
    tempScanFS.walkFiles "C:\\Tmp" =
      [("C:\\Tmp\\a.log", 10), ("C:\\Tmp\\b.log", 20), ("C:\\Tmp\\c.log", 30)] ∧
    tempScanWL.IsWhitelisted id "C:\\Tmp\\a.log" = false ∧
    tempScanWL.IsWhitelisted id "C:\\Tmp\\b.log" = false ∧
    tempScanWL.IsWhitelisted id "C:\\Tmp\\c.log" = true ∧
    ScanAll tempScanFS tempScanEnv id
      [⟨"Temp", ["%TEMP%"], "User temporary files", false, "user", "low"⟩]
      (some tempScanWL) true = [] :=
  ⟨rfl, rfl, rfl, rfl, rfl⟩

/-- Claim C5 (amended): With the temp reference written in the form
`os.ExpandEnv` actually expands (`$TEMP`), the scenario holds: the scan of
the three-file temp directory with one whitelisted file yields exactly one
`ScanResult` with exactly two items, whose `TotalSize` (30 ≤ 50) equals the
sum of the two item sizes. -/
theorem scanAll_temp_scenario :
    ScanAll tempScanFS tempScanEnv id
      [⟨"Temp", ["$TEMP"], "User temporary files", false, "user", "low"⟩]
      (some tempScanWL) true =
      [⟨"Temp",
        [⟨"C:\\Tmp\\a.log", 10, "user", "User temporary files"⟩,
         ⟨"C:\\Tmp\\b.log", 20, "user", "User temporary files"⟩], 30, 2⟩] ∧
    ([⟨"C:\\Tmp\\a.log", 10, "user", "User temporary files"⟩,
      ⟨"C:\\Tmp\\b.log", 20, "user", "User temporary files"⟩].map
        (CleanItem.Size)).sum = 30 ∧
    30 ≤ 50 :=
  ⟨rfl, rfl, by omega⟩

/-! ### Decomposition of `ScanAll`'s members (shared helper) -/

theorem mem_scanAll {fs : GoFS} {env wexp : String → String}
    {targets : List CleanTarget} {wl : Option Whitelist} {isAdmin : Bool}
    {r : ScanResult} (hr : r ∈ ScanAll fs env wexp targets wl isAdmin) :
    ∃ t ∈ targets, (t.RequiresAdmin && !isAdmin) = false ∧
      t.Name ≠ "RecycleBin" ∧ (scanTarget fs env wexp t wl).isEmpty = false ∧
      r = ItemsToResult t.Name (scanTarget fs env wexp t wl) := by
  unfold ScanAll at hr
  rw [(List.perm_insertionSort scanResLE _).mem_iff] at hr
  rw [List.mem_filterMap] at hr
  obtain ⟨t, ht, hf⟩ := hr
  refine ⟨t, ht, ?_⟩
  by_cases h1 : (t.RequiresAdmin && !isAdmin) = true
  · rw [if_pos h1] at hf
    exact absurd hf (by simp)
  · rw [if_neg h1] at hf
    by_cases h2 : t.Name = "RecycleBin"
    · rw [if_pos h2] at hf
      exact absurd hf (by simp)
    · rw [if_neg h2] at hf
      by_cases h3 : (scanTarget fs env wexp t wl).isEmpty = true
      · rw [if_pos h3] at hf
        exact absurd hf (by simp)
      · rw [if_neg h3] at hf
        have := Option.some.inj hf
        exact ⟨by simpa using h1, h2, by simpa using h3, this.symm⟩

theorem foldl_add_size (items : List CleanItem) (a : Nat) :
    items.foldl (fun acc item => acc + item.Size) a = a + (items.map CleanItem.Size).sum := by
  induction items generalizing a with
  | nil => simp
  | cons i is ih =>
    simp only [List.foldl_cons, List.map_cons, List.sum_cons, ih]
    omega

/-- Claim C8: Every `ScanResult` built by `ItemsToResult` — hence every element
of a `ScanAll` output — satisfies the aggregation invariant: `TotalSize` is
the sum of its items' sizes and `ItemCount` is the number of items. -/
theorem scanResult_aggregation_invariant (fs : GoFS) (env wexp : String → String)
    (targets : List CleanTarget) (wl : Option Whitelist) (isAdmin : Bool)
    (name : String) (items : List CleanItem) :
    ((ItemsToResult name items).TotalSize =
        ((ItemsToResult name items).Items.map CleanItem.Size).sum ∧
      (ItemsToResult name items).ItemCount = (ItemsToResult name items).Items.length) ∧
    ∀ r ∈ ScanAll fs env wexp targets wl isAdmin,
      r.TotalSize = (r.Items.map CleanItem.Size).sum ∧ r.ItemCount = r.Items.length := by
  constructor
  · constructor
    · simp [ItemsToResult, foldl_add_size]
    · rfl
  · intro r hr
    obtain ⟨t, _, _, _, _, hrt⟩ := mem_scanAll hr
    subst hrt
    constructor
    · simp [ItemsToResult, foldl_add_size]
    · rfl

/-- Witness for C8: the invariant at a concrete result and a member of a
concrete scan. -/
theorem scanResult_aggregation_invariant_witness :
    (ItemsToResult "T" [⟨"C:\\X\\a", 7, "u", "d"⟩, ⟨"C:\\X\\b", 9, "u", "d"⟩]).TotalSize
        = ((ItemsToResult "T" [⟨"C:\\X\\a", 7, "u", "d"⟩, ⟨"C:\\X\\b", 9, "u", "d"⟩]).Items.map
            CleanItem.Size).sum ∧
    ∀ r ∈ ScanAll
        ⟨fun p => if p = "C:\\X\\a" then some ⟨false, 7⟩ else none, fun _ => [], fun _ => []⟩
        (fun _ => "") id [⟨"T", ["C:\\X\\a"], "d", false, "u", "low"⟩] none true,
      r.TotalSize = (r.Items.map CleanItem.Size).sum ∧ r.ItemCount = r.Items.length :=
  ⟨(scanResult_aggregation_invariant
      ⟨fun p => if p = "C:\\X\\a" then some ⟨false, 7⟩ else none, fun _ => [], fun _ => []⟩
      (fun _ => "") id [⟨"T", ["C:\\X\\a"], "d", false, "u", "low"⟩] none true
      "T" [⟨"C:\\X\\a", 7, "u", "d"⟩, ⟨"C:\\X\\b", 9, "u", "d"⟩]).1.1,
   (scanResult_aggregation_invariant
      ⟨fun p => if p = "C:\\X\\a" then some ⟨false, 7⟩ else none, fun _ => [], fun _ => []⟩
      (fun _ => "") id [⟨"T", ["C:\\X\\a"], "d", false, "u", "low"⟩] none true
      "T" [⟨"C:\\X\\a", 7, "u", "d"⟩, ⟨"C:\\X\\b", 9, "u", "d"⟩]).2⟩

/-- Claim C10: `ScanAll` never returns a `ScanResult` for a target named
"RecycleBin": such targets are skipped before scanning, for every input list,
whitelist, privilege flag and filesystem — an exclusion the spec does not
state. -/
theorem scanAll_excludes_recycleBin (fs : GoFS) (env wexp : String → String)
    (targets : List CleanTarget) (wl : Option Whitelist) (isAdmin : Bool) :
    ∀ r ∈ ScanAll fs env wexp targets wl isAdmin, r.Category ≠ "RecycleBin" := by
  intro r hr
  obtain ⟨t, _, _, hname, _, hrt⟩ := mem_scanAll hr
  subst hrt
  exact hname

/-- Witness for C10: a RecycleBin target in the input yields no result even
though its path exists on the snapshot; a sibling target does. -/
theorem scanAll_excludes_recycleBin_witness :
    (∀ r ∈ ScanAll
        ⟨fun p => if p = "C:\\X\\a" then some ⟨false, 7⟩ else none, fun _ => [], fun _ => []⟩
        (fun _ => "") id
        [⟨"RecycleBin", ["C:\\X\\a"], "d", false, "u", "low"⟩,
         ⟨"T", ["C:\\X\\a"], "d", false, "u", "low"⟩] none true,
      r.Category ≠ "RecycleBin") ∧
    ScanAll
        ⟨fun p => if p = "C:\\X\\a" then some ⟨false, 7⟩ else none, fun _ => [], fun _ => []⟩
        (fun _ => "") id
        [⟨"RecycleBin", ["C:\\X\\a"], "d", false, "u", "low"⟩,
         ⟨"T", ["C:\\X\\a"], "d", false, "u", "low"⟩] none true =
      [⟨"T", [⟨"C:\\X\\a", 7, "u", "d"⟩], 7, 1⟩] :=
  ⟨scanAll_excludes_recycleBin
      ⟨fun p => if p = "C:\\X\\a" then some ⟨false, 7⟩ else none, fun _ => [], fun _ => []⟩
      (fun _ => "") id
      [⟨"RecycleBin", ["C:\\X\\a"], "d", false, "u", "low"⟩,
       ⟨"T", ["C:\\X\\a"], "d", false, "u", "low"⟩] none true,
   rfl⟩

/-! ### The order used by the result sort (helper lemmas) -/

theorem ltCharList_asymm : ∀ (a b : List Char), ltCharList a b = true → ltCharList b a = false
  | [], [] => by intro h; exact absurd h (by simp [ltCharList])
  | [], _ :: _ => by intro _; rfl
  | _ :: _, [] => by intro h; exact absurd h (by simp [ltCharList])
  | x :: xs, y :: ys => by
    intro h
    simp only [ltCharList] at h ⊢
    by_cases h1 : x < y
    · rw [if_neg (lt_asymm h1), if_pos h1]
    · rw [if_neg h1] at h
      by_cases h2 : y < x
      · rw [if_pos h2] at h
        exact absurd h (by simp)
      · rw [if_neg h2] at h
        rw [if_neg h2, if_neg h1]
        exact ltCharList_asymm xs ys h

theorem ltCharList_conn : ∀ (a b : List Char),
    ltCharList a b = false → ltCharList b a = false → a = b
  | [], [] => fun _ _ => rfl
  | [], _ :: _ => by
    intro h _
    exact absurd h (by simp [ltCharList])
  | _ :: _, [] => by
    intro _ h
    exact absurd h (by simp [ltCharList])
  | x :: xs, y :: ys => by
    intro h1 h2
    simp only [ltCharList] at h1 h2
    by_cases ha : x < y
    · rw [if_pos ha] at h1
      exact absurd h1 (by simp)
    · rw [if_neg ha] at h1
      by_cases hb : y < x
      · rw [if_pos hb] at h2
        exact absurd h2 (by simp)
      · rw [if_neg hb] at h1 h2
        rw [if_neg ha] at h2
        have hxy : x = y := le_antisymm (not_lt.mp hb) (not_lt.mp ha)
        have hxs : xs = ys := ltCharList_conn xs ys h1 h2
        rw [hxy, hxs]

theorem ltCharList_trans : ∀ (a b c : List Char),
    ltCharList a b = true → ltCharList b c = true → ltCharList a c = true
  | [], b, c => by
    intro h1 h2
    cases b with
    | nil => exact absurd h1 (by simp [ltCharList])
    | cons y ys =>
      cases c with
      | nil => exact absurd h2 (by simp [ltCharList])
      | cons z zs => simp [ltCharList]
  | x :: xs, b, c => by
    intro h1 h2
    cases b with
    | nil => exact absurd h1 (by simp [ltCharList])
    | cons y ys =>
      cases c with
      | nil => exact absurd h2 (by simp [ltCharList])
      | cons z zs =>
        simp only [ltCharList] at h1 h2 ⊢
        by_cases hxy : x < y
        · by_cases hyz : y < z
          · rw [if_pos (lt_trans hxy hyz)]
          · rw [if_neg hyz] at h2
            by_cases hzy : z < y
            · rw [if_pos hzy] at h2
              exact absurd h2 (by simp)
            · have hy : y = z := le_antisymm (not_lt.mp hzy) (not_lt.mp hyz)
              have hxz : x < z := by rw [← hy]; exact hxy
              rw [if_pos hxz]
        · rw [if_neg hxy] at h1
          by_cases hyx : y < x
          · rw [if_pos hyx] at h1
            exact absurd h1 (by simp)
          · rw [if_neg hyx] at h1
            have hx : x = y := le_antisymm (not_lt.mp hyx) (not_lt.mp hxy)
            by_cases hyz : y < z
            · have hxz : x < z := by rw [hx]; exact hyz
              rw [if_pos hxz]
            · rw [if_neg hyz] at h2
              by_cases hzy : z < y
              · rw [if_pos hzy] at h2
                exact absurd h2 (by simp)
              · rw [if_neg hzy] at h2
                have hzx : ¬z < x := by rw [hx]; exact hzy
                have hxz : ¬x < z := by rw [hx]; exact hyz
                rw [if_neg hxz, if_neg hzx]
                exact ltCharList_trans xs ys zs h1 h2

theorem scanResLE_total (a b : ScanResult) : scanResLE a b ∨ scanResLE b a := by
  unfold scanResLE
  by_cases h : strLt b.Category a.Category = true
  · right
    exact ltCharList_asymm _ _ h
  · left
    exact Bool.eq_false_iff.mpr h

theorem scanResLE_trans (a b c : ScanResult) :
    scanResLE a b → scanResLE b c → scanResLE a c := by
  unfold scanResLE strLt
  intro h1 h2
  by_cases hbc : ltCharList b.Category.data c.Category.data = true
  · by_cases hca : ltCharList c.Category.data a.Category.data = true
    · have hba := ltCharList_trans _ _ _ hbc hca
      rw [hba] at h1
      exact absurd h1 (by simp)
    · exact Bool.eq_false_iff.mpr hca
  · have hb : ltCharList b.Category.data c.Category.data = false :=
      Bool.eq_false_iff.mpr hbc
    have hcb : b.Category.data = c.Category.data := ltCharList_conn _ _ hb h2
    rw [← hcb]
    exact h1

/-- Claim C9: `ScanAll` returns no result for an admin-requiring target when the
caller is not elevated, returns no result for a target whose scan found no
items, and its output is sorted in ascending `Category` (target-name) order —
given the data model's invariant that target names are unique. -/
theorem scanAll_skips_and_sorts (fs : GoFS) (env wexp : String → String)
    (targets : List CleanTarget) (wl : Option Whitelist) (isAdmin : Bool)
    (hnames : (targets.map CleanTarget.Name).Nodup) :
    (∀ t ∈ targets, t.RequiresAdmin = true → isAdmin = false →
      ∀ r ∈ ScanAll fs env wexp targets wl isAdmin, r.Category ≠ t.Name) ∧
    (∀ t ∈ targets, scanTarget fs env wexp t wl = [] →
      ∀ r ∈ ScanAll fs env wexp targets wl isAdmin, r.Category ≠ t.Name) ∧
    (ScanAll fs env wexp targets wl isAdmin).Pairwise scanResLE := by
  refine ⟨?_, ?_, ?_⟩
  · intro t ht hadm hnadm r hr heq
    obtain ⟨u, hu, hcond, _, _, hrt⟩ := mem_scanAll hr
    have : u.Name = t.Name := by rw [← heq, hrt]; rfl
    have hut : u = t := List.inj_on_of_nodup_map hnames hu ht this
    rw [hut, hadm, hnadm] at hcond
    simp at hcond
  · intro t ht hempty r hr heq
    obtain ⟨u, hu, _, _, hne, hrt⟩ := mem_scanAll hr
    have : u.Name = t.Name := by rw [← heq, hrt]; rfl
    have hut : u = t := List.inj_on_of_nodup_map hnames hu ht this
    rw [hut, hempty] at hne
    simp at hne
  · haveI : IsTotal ScanResult scanResLE := ⟨scanResLE_total⟩
    haveI : IsTrans ScanResult scanResLE := ⟨scanResLE_trans⟩
    exact List.sorted_insertionSort scanResLE _

/-- Witness for C9: on a concrete three-target list (one admin-only), scanned
without elevation, the admin target contributes no result and the output is
sorted. -/
theorem scanAll_skips_and_sorts_witness :
    ((⟨"Zeta", [⟨"C:\\X\\a", 7, "u", "d"⟩], 7, 1⟩ : ScanResult).Category ≠ "Adm") ∧
    (ScanAll
        ⟨fun p => if p = "C:\\X\\a" then some ⟨false, 7⟩ else none, fun _ => [], fun _ => []⟩
        (fun _ => "") id
        [⟨"Zeta", ["C:\\X\\a"], "d", false, "u", "low"⟩,
         ⟨"Adm", ["C:\\X\\a"], "d", true, "u", "low"⟩,
         ⟨"Alpha", ["C:\\X\\a"], "d", false, "u", "low"⟩] none false).Pairwise scanResLE :=
  ⟨(scanAll_skips_and_sorts
      ⟨fun p => if p = "C:\\X\\a" then some ⟨false, 7⟩ else none, fun _ => [], fun _ => []⟩
      (fun _ => "") id
      [⟨"Zeta", ["C:\\X\\a"], "d", false, "u", "low"⟩,
       ⟨"Adm", ["C:\\X\\a"], "d", true, "u", "low"⟩,
       ⟨"Alpha", ["C:\\X\\a"], "d", false, "u", "low"⟩] none false (by decide)).1
      ⟨"Adm", ["C:\\X\\a"], "d", true, "u", "low"⟩ (by decide) rfl rfl
      ⟨"Zeta", [⟨"C:\\X\\a", 7, "u", "d"⟩], 7, 1⟩ (by decide),
   (scanAll_skips_and_sorts
      ⟨fun p => if p = "C:\\X\\a" then some ⟨false, 7⟩ else none, fun _ => [], fun _ => []⟩
      (fun _ => "") id
      [⟨"Zeta", ["C:\\X\\a"], "d", false, "u", "low"⟩,
       ⟨"Adm", ["C:\\X\\a"], "d", true, "u", "low"⟩,
       ⟨"Alpha", ["C:\\X\\a"], "d", false, "u", "low"⟩] none false (by decide)).2.2⟩

/-! ### The whitelist round trip (C7) -/

theorem eqFold_refl (s : String) : eqFold s s = true := by
  simp [eqFold]

theorem removeFirstFold_append (l : List String) (p : String)
    (h : ∀ q ∈ l, eqFold q p = false) : removeFirstFold (l ++ [p]) p = some l := by
  induction l with
  | nil => simp [removeFirstFold, eqFold_refl]
  | cons x xs ih =>
    have hx := h x (by simp)
    simp only [List.cons_append, removeFirstFold, hx]
    rw [show xs.append [p] = xs ++ [p] from rfl,
      ih (fun q hq => h q (by simp [hq]))]
    simp

/-- Environment for the round-trip counterexample: `U` is bound. -/
def rtEnv : String → Option String := fun n => if n = "U" then some "C:\\u" else none

/-- Counterexample for C7: The round trip fails for a pattern containing an
environment-variable reference: `Add` accepts `%U%\a\b` (it is non-broad),
but `IsWhitelisted` expands stored patterns before matching, so with `U` bound
the freshly added pattern string itself is not whitelisted. -/
theorem whitelist_roundTrip_counterexample :
    Whitelist.Add ⟨[]⟩ "%U%\\a\\b" = .ok ⟨["%U%\\a\\b"]⟩ ∧
    Whitelist.IsWhitelisted (ExpandWindowsEnv rtEnv) ⟨["%U%\\a\\b"]⟩
      "%U%\\a\\b" = false :=
  ⟨rfl, rfl⟩

/-- Claim C7 (amended): For any non-broad pattern `p` that is
whitespace-trimmed and unchanged by environment expansion: after a successful
`Add(p)`, `IsWhitelisted(p)` is true; and after a subsequent successful
`Remove(p)`, provided no other stored pattern matched `p` (i.e. `p` was not
whitelisted before the `Add`), `IsWhitelisted(p)` is false. -/
theorem whitelist_roundTrip (wexp : String → String) (w w1 w2 : Whitelist)
    (p : String) (hexp : wexp p = p) (htrim : trimSpace p = p)
    (hadd : w.Add p = .ok w1) (hrem : w1.Remove p = .ok w2)
    (hbefore : w.IsWhitelisted wexp p = false) :
    w1.IsWhitelisted wexp p = true ∧ w2.IsWhitelisted wexp p = false := by
  obtain ⟨wp⟩ := w
  unfold Whitelist.Add at hadd
  rw [htrim] at hadd
  by_cases hp0 : p = ""
  · rw [if_pos hp0] at hadd
    exact absurd hadd (by simp)
  · rw [if_neg hp0] at hadd
    cases hv : validatePattern p with
    | error e =>
      rw [hv] at hadd
      exact absurd hadd (by simp)
    | ok u =>
      rw [hv] at hadd
      simp only at hadd
      by_cases hdup : wp.any (fun ex => eqFold ex p) = true
      · rw [if_pos hdup] at hadd
        exact absurd hadd (by simp)
      · rw [if_neg hdup] at hadd
        have hw1 : w1 = ⟨wp ++ [p]⟩ := (Except.ok.inj hadd).symm
        have hnodup : ∀ q ∈ wp, eqFold q p = false := by
          intro q hq
          by_contra hne
          exact hdup (List.any_eq_true.mpr ⟨q, hq, Bool.of_not_eq_false hne⟩)
        constructor
        · rw [hw1]
          unfold Whitelist.IsWhitelisted
          apply List.any_eq_true.mpr
          refine ⟨p, by simp, ?_⟩
          rw [hexp]
          simp [eqFold_refl]
        · unfold Whitelist.Remove at hrem
          rw [htrim, if_neg hp0, hw1] at hrem
          simp only at hrem
          rw [removeFirstFold_append wp p hnodup] at hrem
          have hw2 : w2 = ⟨wp⟩ := by
            simp only at hrem
            exact (Except.ok.inj hrem).symm
          rw [hw2]
          exact hbefore

/-- Witness for C7: round trip at an ordinary expansion-free pattern. -/
theorem whitelist_roundTrip_witness :
    Whitelist.IsWhitelisted id ⟨["C:\\k\\l"]⟩ "C:\\k\\l" = true ∧
    Whitelist.IsWhitelisted id ⟨[]⟩ "C:\\k\\l" = false :=
  whitelist_roundTrip id ⟨[]⟩ ⟨["C:\\k\\l"]⟩ ⟨[]⟩ "C:\\k\\l" rfl rfl rfl rfl rfl

/-! ### Case-insensitivity of the path guard (helper lemmas for C1) -/

theorem charEq_of_toNat {a b : Char} (h : a.toNat = b.toNat) : a = b :=
  Char.ext (UInt32.toNat.inj h)

theorem toNat_lowChar_upper {c : Char} (h1 : 65 ≤ c.toNat) (h2 : c.toNat ≤ 90) :
    (lowChar c).toNat = c.toNat + 32 := by
  unfold lowChar Char.toLower
  rw [if_pos ⟨h1, h2⟩]
  have hv : (c.toNat + 32).isValidChar := Or.inl (by omega)
  rw [Char.ofNat, dif_pos hv]
  rfl

theorem lowChar_eq_self {c : Char} (h : ¬(65 ≤ c.toNat ∧ c.toNat ≤ 90)) :
    lowChar c = c := by
  unfold lowChar Char.toLower
  rw [if_neg h]

theorem lowChar_fix {t : Char} (ht : ¬(65 ≤ t.toNat ∧ t.toNat ≤ 90))
    (ht2 : ¬(97 ≤ t.toNat ∧ t.toNat ≤ 122)) (c : Char) :
    (lowChar c = t) ↔ (c = t) := by
  by_cases hc : 65 ≤ c.toNat ∧ c.toNat ≤ 90
  · have hl := toNat_lowChar_upper hc.1 hc.2
    constructor
    · intro he
      exact absurd ⟨by rw [← he, hl]; omega, by rw [← he, hl]; omega⟩ ht2
    · intro he
      exact absurd (he ▸ hc) ht
  · rw [lowChar_eq_self hc]

theorem lowChar_backslash_iff (c : Char) : (lowChar c = '\\') ↔ (c = '\\') :=
  lowChar_fix (by decide) (by decide) c

theorem lowChar_slash_iff (c : Char) : (lowChar c = '/') ↔ (c = '/') :=
  lowChar_fix (by decide) (by decide) c

theorem lowChar_dot_iff (c : Char) : (lowChar c = '.') ↔ (c = '.') :=
  lowChar_fix (by decide) (by decide) c

theorem lowChar_colon_iff (c : Char) : (lowChar c = ':') ↔ (c = ':') :=
  lowChar_fix (by decide) (by decide) c

theorem isSep_lowChar (c : Char) : isSep (lowChar c) = isSep c := by
  unfold isSep
  by_cases h1 : c = '\\'
  · subst h1; decide
  · by_cases h2 : c = '/'
    · subst h2; decide
    · have hb : ¬(lowChar c = '\\') := fun he => h1 ((lowChar_backslash_iff c).mp he)
      have hs : ¬(lowChar c = '/') := fun he => h2 ((lowChar_slash_iff c).mp he)
      simp [h1, h2, hb, hs]

theorem lowerL_nil_iff (l : List Char) : (lowerL l = []) ↔ (l = []) := by
  cases l <;> simp [lowerL]

theorem lowerL_dot_iff (l : List Char) : (lowerL l = ['.']) ↔ (l = ['.']) := by
  cases l with
  | nil => simp [lowerL]
  | cons c cs =>
    cases cs with
    | nil => simp [lowerL, lowChar_dot_iff]
    | cons d ds => simp [lowerL]

theorem lowerL_dotdot_iff (l : List Char) : (lowerL l = ['.', '.']) ↔ (l = ['.', '.']) := by
  cases l with
  | nil => simp [lowerL]
  | cons c cs =>
    cases cs with
    | nil => simp [lowerL]
    | cons d ds =>
      cases ds with
      | nil => simp [lowerL, lowChar_dot_iff]
      | cons x xs => simp [lowerL]

theorem splitBy_ne_nil (p : Char → Bool) (l : List Char) : splitBy p l ≠ [] := by
  cases l with
  | nil => simp [splitBy]
  | cons c cs =>
    unfold splitBy
    by_cases h : p c
    · simp [h]
    · rw [if_neg (by simpa using h)]
      cases splitBy p cs <;> simp

theorem splitBy_lowerL (l : List Char) :
    splitBy isSep (lowerL l) = (splitBy isSep l).map lowerL := by
  induction l with
  | nil => simp [splitBy, lowerL]
  | cons c cs ih =>
    show splitBy isSep (lowChar c :: lowerL cs) = _
    by_cases h : isSep c = true
    · have h2 : isSep (lowChar c) = true := by rw [isSep_lowChar]; exact h
      simp only [splitBy, h, h2, if_pos, ih, List.map_cons]
      rfl
    · have h2 : ¬(isSep (lowChar c) = true) := by rw [isSep_lowChar]; exact h
      obtain ⟨s0, ss0, hsp⟩ : ∃ s0 ss0, splitBy isSep cs = s0 :: ss0 := by
        cases hq : splitBy isSep cs with
        | nil => exact absurd hq (splitBy_ne_nil _ _)
        | cons a b => exact ⟨a, b, rfl⟩
      rw [splitBy, if_neg h2, ih, hsp]
      rw [splitBy, if_neg h, hsp]
      rfl

theorem joinSeps_lowerL (cs : List (List Char)) :
    joinSeps (cs.map lowerL) = lowerL (joinSeps cs) := by
  induction cs with
  | nil => rfl
  | cons c rest ih =>
    cases rest with
    | nil => simp [joinSeps, lowerL]
    | cons d ds =>
      have hjl : joinSeps ((c :: d :: ds).map lowerL) =
          lowerL c ++ '\\' :: joinSeps ((d :: ds).map lowerL) := by
        simp [joinSeps]
      have hjr : joinSeps (c :: d :: ds) = c ++ '\\' :: joinSeps (d :: ds) := by
        simp [joinSeps]
      rw [hjl, hjr, ih]
      simp [lowerL, show lowChar '\\' = '\\' from by decide]

theorem pushComp_lowerL (rooted : Bool) (stack : List (List Char)) (c : List Char) :
    pushComp rooted (stack.map lowerL) (lowerL c) = (pushComp rooted stack c).map lowerL := by
  by_cases h1 : c = []
  · subst h1
    simp [pushComp, lowerL]
  · by_cases h2 : c = ['.']
    · subst h2
      simp [pushComp, show lowerL ['.'] = ['.'] from by decide]
    · have hl1 : ¬(lowerL c = []) := fun hh => h1 ((lowerL_nil_iff c).mp hh)
      have hl2 : ¬(lowerL c = ['.']) := fun hh => h2 ((lowerL_dot_iff c).mp hh)
      by_cases h3 : c = ['.', '.']
      · subst h3
        have hdd : lowerL ['.', '.'] = ['.', '.'] := by decide
        rw [hdd]
        cases stack with
        | nil =>
          cases rooted <;> simp [pushComp, hdd]
        | cons top rest =>
          by_cases ht : top = ['.', '.']
          · subst ht
            cases rooted <;> simp [pushComp, hdd]
          · have hlt : ¬(lowerL top = ['.', '.']) :=
              fun hh => ht ((lowerL_dotdot_iff top).mp hh)
            cases rooted <;> simp [pushComp, ht, hlt, hdd]
      · have hl3 : ¬(lowerL c = ['.', '.']) := fun hh => h3 ((lowerL_dotdot_iff c).mp hh)
        simp [pushComp, h1, h2, h3, hl1, hl2, hl3]

theorem foldl_pushComp_lowerL (rooted : Bool) (cs : List (List Char))
    (acc : List (List Char)) :
    (cs.map lowerL).foldl (pushComp rooted) (acc.map lowerL) =
      (cs.foldl (pushComp rooted) acc).map lowerL := by
  induction cs generalizing acc with
  | nil => rfl
  | cons c rest ih =>
    simp only [List.map_cons, List.foldl_cons, pushComp_lowerL, ih]

theorem processComps_lowerL (rooted : Bool) (cs : List (List Char)) :
    processComps rooted (cs.map lowerL) = (processComps rooted cs).map lowerL := by
  unfold processComps
  rw [show ([] : List (List Char)) = ([] : List (List Char)).map lowerL from rfl,
    foldl_pushComp_lowerL]
  simp [List.map_reverse]

theorem volumeNameLen_lowerL (l : List Char) :
    volumeNameLen (lowerL l) = volumeNameLen l := by
  unfold volumeNameLen
  cases l with
  | nil => rfl
  | cons a rest =>
    cases rest with
    | nil => rfl
    | cons b rest2 =>
      show (if some (lowChar b) = some ':' then 2 else 0) = if some b = some ':' then 2 else 0
      by_cases hb : b = ':'
      · subst hb
        rw [show lowChar ':' = ':' from by decide]
      · have hlb : ¬(lowChar b = ':') := fun hh => hb ((lowChar_colon_iff b).mp hh)
        rw [if_neg (by simpa using hlb), if_neg (by simpa using hb)]

theorem cleanBody_lowerL (rooted : Bool) (rest : List Char) :
    cleanBody rooted (lowerL rest) = lowerL (cleanBody rooted rest) := by
  unfold cleanBody
  rw [splitBy_lowerL, processComps_lowerL, joinSeps_lowerL]
  cases rooted with
  | true => simp [lowerL, show lowChar '\\' = '\\' from by decide]
  | false =>
    by_cases hb : joinSeps (processComps false (splitBy isSep rest)) = []
    · rw [hb]
      simp [lowerL, show lowChar '.' = '.' from by decide]
    · have hlb : ¬(lowerL (joinSeps (processComps false (splitBy isSep rest))) = []) :=
        fun hh => hb ((lowerL_nil_iff _).mp hh)
      rw [if_neg hb, if_neg hlb]
      simp

theorem cleanL_lowerL (l : List Char) (h : volumeNameLen l = 2) :
    cleanL (lowerL l) = lowerL (cleanL l) := by
  unfold cleanL
  rw [volumeNameLen_lowerL, h]
  rw [show (lowerL l).drop 2 = lowerL (l.drop 2) from by simp [lowerL]]
  rw [show (lowerL l).take 2 = lowerL (l.take 2) from by simp [lowerL]]
  cases hrest : l.drop 2 with
  | nil =>
    show lowerL l ++ ['.'] = lowerL (l ++ ['.'])
    simp [lowerL, show lowChar '.' = '.' from by decide]
  | cons c r2 =>
    show lowerL (l.take 2) ++ _ = lowerL (l.take 2 ++ _)
    rw [show lowerL (c :: r2) = lowChar c :: lowerL r2 from rfl]
    rw [isSep_lowChar]
    rw [show (lowChar c :: lowerL r2) = lowerL (c :: r2) from rfl]
    rw [cleanBody_lowerL]
    have hnd1 : needsDotSlash 2 (lowerL (cleanBody (isSep c) (c :: r2))) (lowerL (c :: r2)) = false := by
      simp [needsDotSlash]
    have hnd2 : needsDotSlash 2 (cleanBody (isSep c) (c :: r2)) (c :: r2) = false := by
      simp [needsDotSlash]
    rw [hnd1, hnd2]
    simp [lowerL]

/-! ### `Clean` is the identity on wellformed absolute paths (C1 helpers) -/

theorem compOK_sepFree {c : List Char} (h : compOK c = true) :
    c.all (fun ch => !isSep ch) = true := by
  unfold compOK at h
  simp only [Bool.and_eq_true] at h
  exact h.2

theorem splitBy_sepFree (c : List Char) (h : c.all (fun ch => !isSep ch) = true) :
    splitBy isSep c = [c] := by
  induction c with
  | nil => rfl
  | cons a as ih =>
    simp only [List.all_cons, Bool.and_eq_true] at h
    have ha : ¬(isSep a = true) := by simpa using h.1
    rw [splitBy, if_neg ha, ih h.2]

theorem splitBy_append_sep (c rest : List Char)
    (h : c.all (fun ch => !isSep ch) = true) :
    splitBy isSep (c ++ '\\' :: rest) = c :: splitBy isSep rest := by
  induction c with
  | nil =>
    show splitBy isSep ('\\' :: rest) = [] :: splitBy isSep rest
    rw [splitBy, if_pos (by decide)]
  | cons a as ih =>
    simp only [List.all_cons, Bool.and_eq_true] at h
    have ha : ¬(isSep a = true) := by simpa using h.1
    show splitBy isSep (a :: (as ++ '\\' :: rest)) = _
    rw [splitBy, if_neg ha, ih h.2]

theorem splitBy_joinSeps (cs : List (List Char)) (hne : cs ≠ [])
    (h : ∀ c ∈ cs, c.all (fun ch => !isSep ch) = true) :
    splitBy isSep (joinSeps cs) = cs := by
  induction cs with
  | nil => exact absurd rfl hne
  | cons c rest ih =>
    cases rest with
    | nil =>
      show splitBy isSep (joinSeps [c]) = [c]
      rw [show joinSeps [c] = c ++ [] from by simp [joinSeps], List.append_nil]
      exact splitBy_sepFree c (h c (by simp))
    | cons d ds =>
      rw [show joinSeps (c :: d :: ds) = c ++ '\\' :: joinSeps (d :: ds) from by
        simp [joinSeps]]
      rw [splitBy_append_sep c _ (h c (by simp))]
      rw [ih (by simp) (fun q hq => h q (by simp [hq]))]

theorem pushComp_real (rooted : Bool) (stack : List (List Char)) {c : List Char}
    (h : compOK c = true) : pushComp rooted stack c = c :: stack := by
  unfold compOK at h
  simp only [Bool.and_eq_true] at h
  have h1 : ¬(c = []) := by
    intro hh
    rw [hh] at h
    simp at h
  have h2 : ¬(c = ['.']) := by
    simpa using h.1.1.2
  have h3 : ¬(c = ['.', '.']) := by
    simpa using h.1.2
  unfold pushComp
  rw [if_neg (by simp [h1, h2]), if_neg h3]

theorem foldl_pushComp_real (rooted : Bool) (cs : List (List Char)) :
    ∀ (acc : List (List Char)), (∀ c ∈ cs, compOK c = true) →
      cs.foldl (pushComp rooted) acc = cs.reverse ++ acc := by
  induction cs with
  | nil => intro acc _; rfl
  | cons c rest ih =>
    intro acc h
    rw [List.foldl_cons, pushComp_real rooted acc (h c (by simp))]
    rw [ih (c :: acc) (fun q hq => h q (by simp [hq]))]
    simp

theorem processComps_real (rooted : Bool) (cs : List (List Char))
    (h : ∀ c ∈ cs, compOK c = true) : processComps rooted cs = cs := by
  unfold processComps
  rw [foldl_pushComp_real rooted cs [] h]
  simp

theorem joinSeps_append (a b : List (List Char)) (ha : a ≠ []) (hb : b ≠ []) :
    joinSeps (a ++ b) = joinSeps a ++ '\\' :: joinSeps b := by
  induction a with
  | nil => exact absurd rfl ha
  | cons c rest ih =>
    cases rest with
    | nil =>
      cases b with
      | nil => exact absurd rfl hb
      | cons d ds =>
        show joinSeps (c :: d :: ds) = joinSeps [c] ++ '\\' :: joinSeps (d :: ds)
        simp [joinSeps]
    | cons e es =>
      show joinSeps (c :: ((e :: es) ++ b)) = _
      rw [show joinSeps (c :: ((e :: es) ++ b)) =
          c ++ '\\' :: joinSeps ((e :: es) ++ b) from by simp [joinSeps]]
      rw [ih (by simp)]
      rw [show joinSeps (c :: e :: es) = c ++ '\\' :: joinSeps (e :: es) from by
        simp [joinSeps]]
      simp

theorem processComps_rooted_entry (comps : List (List Char))
    (hok : ∀ c ∈ comps, compOK c = true) :
    processComps true ([] :: comps) = comps := by
  unfold processComps
  rw [List.foldl_cons]
  rw [show pushComp true [] [] = [] from rfl]
  rw [foldl_pushComp_real true comps [] hok]
  simp

theorem cleanL_mkAbs (d : Char) (comps : List (List Char)) (hne : comps ≠ [])
    (hok : ∀ c ∈ comps, compOK c = true) :
    cleanL (d :: ':' :: '\\' :: joinSeps comps) = d :: ':' :: '\\' :: joinSeps comps := by
  have hvl : volumeNameLen (d :: ':' :: '\\' :: joinSeps comps) = 2 := by
    simp [volumeNameLen]
  have hsplit : splitBy isSep ('\\' :: joinSeps comps) = [] :: comps := by
    rw [splitBy, if_pos (by decide)]
    rw [splitBy_joinSeps comps hne (fun c hc => compOK_sepFree (hok c hc))]
  have hbody : cleanBody (isSep '\\') ('\\' :: joinSeps comps) = '\\' :: joinSeps comps := by
    rw [show isSep '\\' = true from by decide]
    unfold cleanBody
    rw [if_pos rfl, hsplit, processComps_rooted_entry comps hok]
  have hnd : needsDotSlash 2 ('\\' :: joinSeps comps) ('\\' :: joinSeps comps) = false := by
    simp [needsDotSlash]
  unfold cleanL
  rw [hvl]
  show [d, ':'] ++
      (if needsDotSlash 2 (cleanBody (isSep '\\') ('\\' :: joinSeps comps))
          ('\\' :: joinSeps comps) = true then
        '.' :: '\\' :: cleanBody (isSep '\\') ('\\' :: joinSeps comps)
      else cleanBody (isSep '\\') ('\\' :: joinSeps comps)) =
    d :: ':' :: '\\' :: joinSeps comps
  rw [hbody, hnd]
  rfl

theorem isPrefixOf_append_self (a b : List Char) : a.isPrefixOf (a ++ b) = true := by
  induction a with
  | nil => simp [List.isPrefixOf]
  | cons c cs ih => simp [List.isPrefixOf, ih]

theorem neverDelete_entriesOK : GetNeverDeletePaths.all entryOK = true := by decide

theorem volumeNameLen_of_lower_eq {a b : List Char} (h : lowerL a = lowerL b)
    (hb : volumeNameLen b = 2) : volumeNameLen a = 2 := by
  rw [← volumeNameLen_lowerL a, h, volumeNameLen_lowerL b]
  exact hb

theorem validatePath_err_of_blocked (s : String) (h : IsSafePath s = false)
    (ls : String → Option Bool) (ev : String → Option String) :
    isErrE (ValidatePath ls ev s) = true := by
  unfold ValidatePath
  dsimp only
  repeat' split
  all_goals first
    | rfl
    | simp_all

/-- Claim C1: Every path that equals an entry of the never-delete list, and
every path nested (separator-bounded, one or more levels) under such an
entry, is rejected: `IsSafePath` returns false and `ValidatePath` returns a
rejection error, regardless of the letter case of the candidate (case
variance is expressed as equality after ASCII lower-casing; nesting as a
non-empty list of wellformed suffix components). -/
theorem neverDelete_blocked (e s : String) (scomps : List (List Char))
    (he : e ∈ GetNeverDeletePaths)
    (hcase : lowerL s.data = lowerL e.data ∨
      (compsOK scomps = true ∧
        lowerL s.data = lowerL (e.data ++ '\\' :: joinSeps scomps))) :
    IsSafePath s = false ∧
    ∀ (ls : String → Option Bool) (ev : String → Option String),
      isErrE (ValidatePath ls ev s) = true := by
  have hOK : entryOK e = true :=
    List.all_eq_true.mp neverDelete_entriesOK e he
  have hsafe : IsSafePath s = false := by
    unfold entryOK at hOK
    split at hOK
    case h_2 => simp at hOK
    case h_1 d rest heq =>
      simp only [Bool.and_eq_true, beq_iff_eq] at hOK
      obtain ⟨hcs, hjoin⟩ := hOK
      have hcsplit := hcs
      unfold compsOK at hcsplit
      simp only [Bool.and_eq_true, List.all_eq_true] at hcsplit
      have hcne : splitBy isSep rest ≠ [] := splitBy_ne_nil _ _
      have hcok : ∀ c ∈ splitBy isSep rest, compOK c = true := hcsplit.2
      have hedata : e.data = d :: ':' :: '\\' :: joinSeps (splitBy isSep rest) := by
        rw [heq, hjoin]
      have hce : cleanL e.data = e.data := by
        rw [hedata]
        exact cleanL_mkAbs d _ hcne hcok
      have hvle : volumeNameLen e.data = 2 := by
        rw [heq]
        simp [volumeNameLen]
      rcases hcase with hlow | ⟨hcomps, hlow⟩
      · -- the candidate is a case variant of the entry itself
        have hvls : volumeNameLen s.data = 2 := volumeNameLen_of_lower_eq hlow hvle
        have hkey : lowerL (cleanL s.data) = lowerL (cleanL e.data) := by
          rw [← cleanL_lowerL s.data hvls, hlow, cleanL_lowerL e.data hvle]
        have hfold : eqFold (clean s) (clean e) = true := by
          show (lowerL (cleanL s.data) == lowerL (cleanL e.data)) = true
          rw [hkey]
          simp
        unfold IsSafePath
        apply List.all_eq_false.mpr
        refine ⟨e, he, ?_⟩
        simp [hfold]
      · -- the candidate is a case variant of a nested path
        have hscs := hcomps
        unfold compsOK at hscs
        simp only [Bool.and_eq_true, List.all_eq_true] at hscs
        have sne : scomps ≠ [] := by
          cases scomps with
          | nil => simp at hscs
          | cons a b => simp
        have sok : ∀ c ∈ scomps, compOK c = true := hscs.2
        have hnested : e.data ++ '\\' :: joinSeps scomps =
            d :: ':' :: '\\' :: joinSeps (splitBy isSep rest ++ scomps) := by
          rw [hedata, joinSeps_append _ scomps hcne sne]
          simp
        have hcleanN : cleanL (e.data ++ '\\' :: joinSeps scomps) =
            e.data ++ '\\' :: joinSeps scomps := by
          rw [hnested]
          refine cleanL_mkAbs d _ (by simp [hcne]) ?_
          intro c hc
          rcases List.mem_append.mp hc with h1 | h2
          · exact hcok c h1
          · exact sok c h2
        have hvlN : volumeNameLen (e.data ++ '\\' :: joinSeps scomps) = 2 := by
          rw [hnested]
          simp [volumeNameLen]
        have hvls : volumeNameLen s.data = 2 := volumeNameLen_of_lower_eq hlow hvlN
        have hkey : lowerL (cleanL s.data) =
            lowerL (e.data ++ '\\' :: joinSeps scomps) := by
          rw [← cleanL_lowerL s.data hvls, hlow, cleanL_lowerL _ hvlN, hcleanN]
        have hpre : (lowerL ((clean e).data ++ ['\\'])).isPrefixOf
            (lowerL (clean s).data ++ ['\\']) = true := by
          show (lowerL (cleanL e.data ++ ['\\'])).isPrefixOf
            (lowerL (cleanL s.data) ++ ['\\']) = true
          rw [hce, hkey]
          have h1 : lowerL (e.data ++ ['\\']) = lowerL e.data ++ ['\\'] := by
            simp [lowerL, show lowChar '\\' = '\\' from by decide]
          have h2 : lowerL (e.data ++ '\\' :: joinSeps scomps) ++ ['\\'] =
              (lowerL e.data ++ ['\\']) ++ (lowerL (joinSeps scomps) ++ ['\\']) := by
            simp [lowerL, show lowChar '\\' = '\\' from by decide]
          rw [h1, h2]
          exact isPrefixOf_append_self (lowerL e.data ++ ['\\']) _
        unfold IsSafePath
        apply List.all_eq_false.mpr
        refine ⟨e, he, ?_⟩
        simp [hpre]
  exact ⟨hsafe, fun ls ev => validatePath_err_of_blocked s hsafe ls ev⟩

/-- Witness for C1: the mixed-case nested path `c:\WINDOWS\Temp` under the
entry `C:\Windows`, and the mixed-case entry `C:\WINDOWS` itself. -/
theorem neverDelete_blocked_witness :
    IsSafePath "c:\\WINDOWS\\Temp" = false ∧
    isErrE (ValidatePath (fun _ => none) (fun _ => none) "c:\\WINDOWS\\Temp") = true :=
  ⟨(neverDelete_blocked "C:\\Windows" "c:\\WINDOWS\\Temp" [['T','e','m','p']]
      (by decide) (Or.inr ⟨by decide, by decide⟩)).1,
   (neverDelete_blocked "C:\\Windows" "c:\\WINDOWS\\Temp" [['T','e','m','p']]
      (by decide) (Or.inr ⟨by decide, by decide⟩)).2 (fun _ => none) (fun _ => none)⟩

end PureWin
